import Mathlib

/-!
Shallow embedding of the `Quaternion` class of `src/src/classes/quaternion.ts`
(the authoritative module version, the one shipped in `dist/`), with JavaScript
numbers modelled as real numbers (exact real arithmetic).

The TypeScript constructor reads

  constructor(x?: number, y?: number, z?: number, w?: number) {
      if (x) this.x = x;
      if (y) this.y = y;
      if (z) this.z = z;
      if (w) this.w = w;
  }

with field defaults x = 0, y = 0, z = 0, w = 1.  A numeric argument equal to 0
is falsy, so it leaves the field at its default.  `qmk` models this
constructor; every `new Quaternion(...)` in the source is translated to `qmk`.
-/

namespace QuatSpec

/-- The quaternion data model: four number fields x, y, z, w. -/
structure Quat where
  x : ℝ
  y : ℝ
  z : ℝ
  w : ℝ

/-- The constructor `new Quaternion(a, b, c, d)`: a falsy (zero) argument
leaves the field at its default (x = 0, y = 0, z = 0, w = 1). -/
noncomputable def qmk (a b c d : ℝ) : Quat :=
  { x := if a = 0 then 0 else a
    y := if b = 0 then 0 else b
    z := if c = 0 then 0 else c
    w := if d = 0 then 1 else d }

/-- `Quaternion.Dot(lhs, rhs)`. -/
def Dot (lhs rhs : Quat) : ℝ :=
  lhs.x * rhs.x + lhs.y * rhs.y + lhs.z * rhs.z + lhs.w * rhs.w

/-- The `magnitude` getter: `Math.sqrt(Quaternion.Dot(this, this))`. -/
noncomputable def magnitude (q : Quat) : ℝ :=
  Real.sqrt (Dot q q)

/-- The `sqrMagnitude` getter: `Math.sqrt(this.magnitude)`. -/
noncomputable def sqrMagnitude (q : Quat) : ℝ :=
  Real.sqrt (magnitude q)

/-- The `Quaternion.identity` static getter: `new Quaternion(0, 0, 0, 1)`. -/
noncomputable def identityQ : Quat := qmk 0 0 0 1

/-- The `normalized` getter: componentwise division by the magnitude when
`magnitude > 0` (through the constructor), else `Quaternion.identity`. -/
noncomputable def normalized (q : Quat) : Quat :=
  if magnitude q > 0 then
    qmk (q.x / magnitude q) (q.y / magnitude q) (q.z / magnitude q) (q.w / magnitude q)
  else identityQ

/-- The `conjugate` getter: `new Quaternion(-x, -y, -z, w)`. -/
noncomputable def conjugate (q : Quat) : Quat :=
  qmk (-q.x) (-q.y) (-q.z) q.w

/-- The `inverse` getter: conjugate components divided by `magnitude ** 2`,
through the constructor. -/
noncomputable def inverse (q : Quat) : Quat :=
  qmk ((conjugate q).x / magnitude q ^ 2) ((conjugate q).y / magnitude q ^ 2)
    ((conjugate q).z / magnitude q ^ 2) ((conjugate q).w / magnitude q ^ 2)

/-- `Quaternion.Multiply(lhs, rhs)`: the Hamilton product, through the
constructor. -/
noncomputable def Multiply (lhs rhs : Quat) : Quat :=
  qmk (lhs.w * rhs.x + lhs.x * rhs.w + lhs.y * rhs.z - lhs.z * rhs.y)
    (lhs.w * rhs.y + lhs.y * rhs.w + lhs.z * rhs.x - lhs.x * rhs.z)
    (lhs.w * rhs.z + lhs.z * rhs.w + lhs.x * rhs.y - lhs.y * rhs.x)
    (lhs.w * rhs.w - lhs.x * rhs.x - lhs.y * rhs.y - lhs.z * rhs.z)

/-- `Quaternion.Add(lhs, rhs)`: componentwise sum, through the constructor. -/
noncomputable def Add (lhs rhs : Quat) : Quat :=
  qmk (lhs.x + rhs.x) (lhs.y + rhs.y) (lhs.z + rhs.z) (lhs.w + rhs.w)

/-- `Quaternion.Subtract(lhs, rhs)`: componentwise difference, through the
constructor. -/
noncomputable def Subtract (lhs rhs : Quat) : Quat :=
  qmk (lhs.x - rhs.x) (lhs.y - rhs.y) (lhs.z - rhs.z) (lhs.w - rhs.w)

/-- `Quaternion.Divide(lhs, rhs)`: `Multiply(lhs, rhs.inverse)`. -/
noncomputable def Divide (lhs rhs : Quat) : Quat :=
  Multiply lhs (inverse rhs)

/-- The mutating instance method `Add`: `this.x += other.x` and so on; the
receiver's fields are assigned directly, not through the constructor.  The
post-state of the receiver is returned. -/
def instAdd (q o : Quat) : Quat :=
  { x := q.x + o.x, y := q.y + o.y, z := q.z + o.z, w := q.w + o.w }

/-- The mutating instance method `Subtract`: `this.x -= other.x` and so on. -/
def instSub (q o : Quat) : Quat :=
  { x := q.x - o.x, y := q.y - o.y, z := q.z - o.z, w := q.w - o.w }

/-- The mutating instance method `Multiply`: the four fields of `this` are
assigned one after the other, so each later line reads the already-updated
earlier fields (`this.y` uses the new `this.x`, and so on). -/
def instMul (q o : Quat) : Quat :=
  let x1 := q.w * o.x + q.x * o.w + q.y * o.z - q.z * o.y
  let y1 := q.w * o.y + q.y * o.w + q.z * o.x - x1 * o.z
  let z1 := q.w * o.z + q.z * o.w + x1 * o.y - y1 * o.x
  let w1 := q.w * o.w - x1 * o.x - y1 * o.y - z1 * o.z
  { x := x1, y := y1, z := z1, w := w1 }

/-- The mutating instance method `Divide`: `this.Multiply(other.inverse)`. -/
noncomputable def instDiv (q o : Quat) : Quat :=
  instMul q (inverse o)

/-- `DoSlerp` local value `to` after the shorter-arc sign flip: if
`Dot(from, to) < 0` the quaternion `to` is rebuilt with all four components
negated (through the constructor). -/
noncomputable def slerpTo (q r : Quat) : Quat :=
  if Dot q r < 0 then qmk (-r.x) (-r.y) (-r.z) (-r.w) else r

/-- `DoSlerp` local value `dot` after the sign flip: `dot = -dot` when the
original dot product is negative. -/
noncomputable def slerpDot (q r : Quat) : ℝ :=
  if Dot q r < 0 then -(Dot q r) else Dot q r

/-- `DoSlerp` local value `theta`: `Math.acos(dot) * t`. -/
noncomputable def slerpTheta (q r : Quat) (t : ℝ) : ℝ :=
  Real.arccos (slerpDot q r) * t

/-- `DoSlerp` local value `to_orthogonal`: the normalized Gram-Schmidt
component `normalize(to - from * dot)`, built through the constructor. -/
noncomputable def slerpOrth (q r : Quat) : Quat :=
  normalized (qmk ((slerpTo q r).x - q.x * slerpDot q r)
    ((slerpTo q r).y - q.y * slerpDot q r)
    ((slerpTo q r).z - q.z * slerpDot q r)
    ((slerpTo q r).w - q.w * slerpDot q r))

/-- `Quaternion.DoSlerp(from, to, t)`: after the sign flip, either the
normalized linear interpolation (when `dot > 0.9995`) or the trigonometric
spherical interpolation `from * cos(theta) + to_orthogonal * sin(theta)`. -/
noncomputable def DoSlerp (q r : Quat) (t : ℝ) : Quat :=
  if slerpDot q r > 0.9995 then
    normalized (qmk (q.x + t * ((slerpTo q r).x - q.x)) (q.y + t * ((slerpTo q r).y - q.y))
      (q.z + t * ((slerpTo q r).z - q.z)) (q.w + t * ((slerpTo q r).w - q.w)))
  else
    qmk (q.x * Real.cos (slerpTheta q r t) + (slerpOrth q r).x * Real.sin (slerpTheta q r t))
      (q.y * Real.cos (slerpTheta q r t) + (slerpOrth q r).y * Real.sin (slerpTheta q r t))
      (q.z * Real.cos (slerpTheta q r t) + (slerpOrth q r).z * Real.sin (slerpTheta q r t))
      (q.w * Real.cos (slerpTheta q r t) + (slerpOrth q r).w * Real.sin (slerpTheta q r t))

/-- `Quaternion.Slerp(from, to, t)`: returns `from` when `t < 0`, `to` when
`t > 1`, else delegates to `DoSlerp`. -/
noncomputable def Slerp (q r : Quat) (t : ℝ) : Quat :=
  if t < 0 then q else if t > 1 then r else DoSlerp q r t

/-- `Quaternion.SlerpUnclamped(from, to, t)`: delegates to `DoSlerp`. -/
noncomputable def SlerpUnclamped (q r : Quat) (t : ℝ) : Quat :=
  DoSlerp q r t

/-! Basic lemmas about the embedding. -/

/-- The zero-check on the x, y, z arguments is the identity on real numbers
(their default is 0), so only the w field's quirk is observable. -/
lemma qmk_eq (a b c d : ℝ) : qmk a b c d = ⟨a, b, c, if d = 0 then 1 else d⟩ := by
  unfold qmk
  congr 1 <;> split <;> simp_all

lemma qmk_of_w_ne {d : ℝ} (hd : d ≠ 0) (a b c : ℝ) : qmk a b c d = ⟨a, b, c, d⟩ := by
  rw [qmk_eq, if_neg hd]

lemma qmk_w_ne_zero (a b c d : ℝ) : (qmk a b c d).w ≠ 0 := by
  rw [qmk_eq]
  dsimp only
  split
  · exact one_ne_zero
  · assumption

lemma identityQ_eq : identityQ = ⟨0, 0, 0, 1⟩ := by
  rw [identityQ, qmk_of_w_ne one_ne_zero]

lemma dot_self_eq (q : Quat) : Dot q q = q.x ^ 2 + q.y ^ 2 + q.z ^ 2 + q.w ^ 2 := by
  unfold Dot; ring

lemma dot_self_nonneg (q : Quat) : 0 ≤ Dot q q := by
  rw [dot_self_eq]; positivity

lemma magnitude_nonneg (q : Quat) : 0 ≤ magnitude q :=
  Real.sqrt_nonneg _

lemma magnitude_sq (q : Quat) : magnitude q ^ 2 = Dot q q :=
  Real.sq_sqrt (dot_self_nonneg q)

lemma magnitude_eq_one_iff (q : Quat) : magnitude q = 1 ↔ Dot q q = 1 := by
  rw [magnitude, Real.sqrt_eq_one]

lemma magnitude_pos_of_dot {q : Quat} (h : 0 < Dot q q) : 0 < magnitude q :=
  Real.sqrt_pos.mpr h

lemma dot_pos_of_w {q : Quat} (hw : q.w ≠ 0) : 0 < Dot q q := by
  rw [dot_self_eq]
  have h4 : 0 < q.w ^ 2 := pow_pos (abs_pos.mpr hw) 2 |>.trans_eq (by rw [sq_abs])
  nlinarith [sq_nonneg q.x, sq_nonneg q.y, sq_nonneg q.z]

/-- On a quaternion with positive magnitude and nonzero w field, `normalized`
is the plain componentwise division. -/
lemma normalized_of {q : Quat} (hm : 0 < magnitude q) (hw : q.w ≠ 0) :
    normalized q = ⟨q.x / magnitude q, q.y / magnitude q, q.z / magnitude q,
      q.w / magnitude q⟩ := by
  rw [normalized, if_pos hm, qmk_of_w_ne (div_ne_zero hw (ne_of_gt hm))]

lemma dot_normalized {q : Quat} (hm : 0 < magnitude q) (hw : q.w ≠ 0) :
    Dot (normalized q) (normalized q) = 1 := by
  rw [normalized_of hm hw]
  have hmne : magnitude q ≠ 0 := ne_of_gt hm
  have h2 : magnitude q ^ 2 = Dot q q := magnitude_sq q
  unfold Dot at h2 ⊢
  dsimp only
  field_simp
  linarith [h2]

lemma magnitude_normalized {q : Quat} (hm : 0 < magnitude q) (hw : q.w ≠ 0) :
    magnitude (normalized q) = 1 :=
  (magnitude_eq_one_iff _).mpr (dot_normalized hm hw)

lemma sqrt_four : Real.sqrt 4 = 2 := by
  rw [show (4:ℝ) = 2 ^ 2 by norm_num, Real.sqrt_sq (by norm_num : (0:ℝ) ≤ 2)]

lemma quat_eta (q : Quat) : (⟨q.x, q.y, q.z, q.w⟩ : Quat) = q := rfl

/-! Claim theorems. -/

/-- C4: the constructor treats a numeric-zero argument as absent: a parameter
equal to 0 leaves the corresponding field at its default (x = 0, y = 0, z = 0,
w = 1); in particular `new Quaternion(0, 1, 0, 0)` has w = 1, not 0. -/
theorem ctor_zero_defaults :
    (∀ a b c d : ℝ, a = 0 → (qmk a b c d).x = 0) ∧
    (∀ a b c d : ℝ, b = 0 → (qmk a b c d).y = 0) ∧
    (∀ a b c d : ℝ, c = 0 → (qmk a b c d).z = 0) ∧
    (∀ a b c d : ℝ, d = 0 → (qmk a b c d).w = 1) ∧
    qmk 0 1 0 0 = ⟨0, 1, 0, 1⟩ := by
  refine ⟨?_, ?_, ?_, ?_, ?_⟩ <;> intros <;> simp_all [qmk]

/-- Witness for C4 at concrete arguments. -/
theorem ctor_zero_defaults_witness :
    (qmk 1 1 1 0).w = 1 ∧ (qmk 0 1 1 1).x = 0 ∧
    (qmk 1 0 1 1).y = 0 ∧ (qmk 1 1 0 1).z = 0 :=
  ⟨ctor_zero_defaults.2.2.2.1 1 1 1 0 rfl, ctor_zero_defaults.1 0 1 1 1 rfl,
   ctor_zero_defaults.2.1 1 0 1 1 rfl, ctor_zero_defaults.2.2.1 1 1 0 1 rfl⟩

/-- C9: `sqrMagnitude` is the square root of the magnitude, that is
`(x² + y² + z² + w²)^(1/4)`, and not the mathematical squared magnitude
`Dot(q, q)` (they differ, e.g., at (0, 0, 0, 2)). -/
theorem sqrMagnitude_spec :
    (∀ q : Quat, sqrMagnitude q = Real.sqrt (magnitude q)) ∧
    (∀ q : Quat, sqrMagnitude q = (q.x ^ 2 + q.y ^ 2 + q.z ^ 2 + q.w ^ 2) ^ ((1:ℝ)/4)) ∧
    sqrMagnitude ⟨0, 0, 0, 2⟩ ≠ Dot ⟨0, 0, 0, 2⟩ ⟨0, 0, 0, 2⟩ := by
  have key : ∀ q : Quat, sqrMagnitude q = (Dot q q) ^ ((1:ℝ)/4) := by
    intro q
    rw [sqrMagnitude, magnitude, Real.sqrt_eq_rpow, Real.sqrt_eq_rpow,
      ← Real.rpow_mul (dot_self_nonneg q)]
    norm_num
  refine ⟨fun q => rfl, fun q => by rw [key q, dot_self_eq], ?_⟩
  have h4 : Dot ⟨0, 0, 0, 2⟩ ⟨0, 0, 0, 2⟩ = 4 := by norm_num [Dot]
  have hm : magnitude ⟨0, 0, 0, 2⟩ = 2 := by rw [magnitude, h4, sqrt_four]
  rw [sqrMagnitude, hm, h4]
  have hlt : Real.sqrt 2 < 2 := by
    have h := Real.sqrt_lt_sqrt (by norm_num : (0:ℝ) ≤ 2) (by norm_num : (2:ℝ) < 4)
    rwa [sqrt_four] at h
  exact ne_of_lt (hlt.trans (by norm_num))

/-- C8: `Slerp` clamps t (returning `from` for t < 0 and `to` for t > 1) and
otherwise delegates to `DoSlerp`, and `SlerpUnclamped` delegates to `DoSlerp`
for every t; all three are total, loop-free functions of their inputs. -/
theorem slerp_total_structure (q r : Quat) (t : ℝ) :
    (t < 0 → Slerp q r t = q) ∧ (t > 1 → Slerp q r t = r) ∧
    (¬ t < 0 → ¬ t > 1 → Slerp q r t = DoSlerp q r t) ∧
    SlerpUnclamped q r t = DoSlerp q r t := by
  refine ⟨fun h => by rw [Slerp, if_pos h], fun h => ?_, fun h1 h2 => ?_, rfl⟩
  · rw [Slerp, if_neg (by linarith), if_pos h]
  · rw [Slerp, if_neg h1, if_neg h2]

/-- Witness for C8 at concrete inputs, including t outside [0, 1]. -/
theorem slerp_total_structure_witness :
    Slerp ⟨0, 0, 0, 1⟩ ⟨1, 0, 0, 0⟩ (-1) = ⟨0, 0, 0, 1⟩ ∧
    Slerp ⟨0, 0, 0, 1⟩ ⟨1, 0, 0, 0⟩ 2 = ⟨1, 0, 0, 0⟩ ∧
    Slerp ⟨0, 0, 0, 1⟩ ⟨1, 0, 0, 0⟩ (1/2) = DoSlerp ⟨0, 0, 0, 1⟩ ⟨1, 0, 0, 0⟩ (1/2) ∧
    SlerpUnclamped ⟨0, 0, 0, 1⟩ ⟨1, 0, 0, 0⟩ 1000000 = DoSlerp ⟨0, 0, 0, 1⟩ ⟨1, 0, 0, 0⟩ 1000000 :=
  ⟨(slerp_total_structure _ _ _).1 (by norm_num),
   (slerp_total_structure _ _ _).2.1 (by norm_num),
   (slerp_total_structure _ _ _).2.2.1 (by norm_num) (by norm_num),
   (slerp_total_structure _ _ _).2.2.2⟩

lemma multiply_q_id (q : Quat) : Multiply q ⟨0, 0, 0, 1⟩ = qmk q.x q.y q.z q.w := by
  unfold Multiply
  dsimp only
  norm_num

lemma multiply_id_q (q : Quat) : Multiply ⟨0, 0, 0, 1⟩ q = qmk q.x q.y q.z q.w := by
  unfold Multiply
  dsimp only
  norm_num

/-- Counterexample for C3: (1, 0, 0, 0) is a unit quaternion, yet multiplying
it by the identity yields (1, 0, 0, 1), because the constructor replaces the
computed w component 0 by its default 1. -/
theorem multiply_identity_cex :
    magnitude ⟨1, 0, 0, 0⟩ = 1 ∧ Multiply ⟨1, 0, 0, 0⟩ identityQ ≠ ⟨1, 0, 0, 0⟩ := by
  constructor
  · rw [magnitude_eq_one_iff]; norm_num [Dot]
  · rw [identityQ_eq, multiply_q_id, qmk_eq]
    norm_num

/-- C3 (amended): `Multiply(q, identity) = q` and `Multiply(identity, q) = q`
for every unit quaternion q whose w component is nonzero. -/
theorem multiply_identity (q : Quat) (hq : magnitude q = 1) (hw : q.w ≠ 0) :
    Multiply q identityQ = q ∧ Multiply identityQ q = q := by
  rw [identityQ_eq, multiply_q_id, multiply_id_q, qmk_of_w_ne hw, quat_eta]
  exact ⟨rfl, rfl⟩

/-- Witness for C3 at the unit quaternion (0, 0, 0, 1). -/
theorem multiply_identity_witness :
    Multiply ⟨0, 0, 0, 1⟩ identityQ = ⟨0, 0, 0, 1⟩ ∧
    Multiply identityQ ⟨0, 0, 0, 1⟩ = ⟨0, 0, 0, 1⟩ :=
  multiply_identity ⟨0, 0, 0, 1⟩ (by rw [magnitude_eq_one_iff]; norm_num [Dot])
    (by norm_num)

/-- Counterexample for C5: (2, 0, 0, 0) has magnitude 2 > 0, yet `normalized`
does not return the componentwise division (1, 0, 0, 0): the constructor turns
the computed w component 0/2 into the default 1. -/
theorem normalized_spec_cex :
    magnitude ⟨2, 0, 0, 0⟩ = 2 ∧
    normalized ⟨2, 0, 0, 0⟩ ≠ ⟨2 / 2, 0 / 2, 0 / 2, 0 / 2⟩ := by
  have h4 : Dot ⟨2, 0, 0, 0⟩ ⟨2, 0, 0, 0⟩ = 4 := by norm_num [Dot]
  have hm : magnitude ⟨2, 0, 0, 0⟩ = 2 := by rw [magnitude, h4, sqrt_four]
  refine ⟨hm, ?_⟩
  rw [normalized, if_pos (by rw [hm]; norm_num), hm, qmk_eq]
  norm_num

/-- C5 (amended): `normalized` returns the componentwise division by the
magnitude when the magnitude is positive, provided the w component is nonzero
(otherwise the constructor replaces the computed w of 0 by 1), and returns
identity when the magnitude is 0. -/
theorem normalized_spec (q : Quat) :
    (0 < magnitude q → q.w ≠ 0 →
      normalized q = ⟨q.x / magnitude q, q.y / magnitude q, q.z / magnitude q,
        q.w / magnitude q⟩) ∧
    (magnitude q = 0 → normalized q = identityQ) := by
  refine ⟨fun hm hw => normalized_of hm hw, fun h0 => ?_⟩
  rw [normalized, if_neg (by rw [h0]; exact lt_irrefl 0)]

/-- Witness for C5: a positive-magnitude input with nonzero w, and the zero
quaternion. -/
theorem normalized_spec_witness :
    normalized ⟨0, 0, 0, 2⟩ = ⟨0, 0, 0, 1⟩ ∧ normalized ⟨0, 0, 0, 0⟩ = identityQ := by
  have h4 : Dot ⟨0, 0, 0, 2⟩ ⟨0, 0, 0, 2⟩ = 4 := by norm_num [Dot]
  have hm : magnitude ⟨0, 0, 0, 2⟩ = 2 := by rw [magnitude, h4, sqrt_four]
  constructor
  · have h := (normalized_spec ⟨0, 0, 0, 2⟩).1 (by rw [hm]; norm_num) (by norm_num)
    rw [h, hm]
    norm_num
  · exact (normalized_spec ⟨0, 0, 0, 0⟩).2 (by simp [magnitude, Dot])

lemma inverse_id : inverse ⟨0, 0, 0, 1⟩ = ⟨0, 0, 0, 1⟩ := by
  have hc : conjugate ⟨0, 0, 0, 1⟩ = ⟨0, 0, 0, 1⟩ := by
    unfold conjugate
    rw [qmk_eq]
    norm_num
  have hm : magnitude ⟨0, 0, 0, 1⟩ = 1 := by rw [magnitude_eq_one_iff]; norm_num [Dot]
  unfold inverse
  rw [hc, hm, qmk_eq]
  norm_num

/-- Counterexample for C6: the instance `Multiply` mutates the receiver's
fields sequentially, so its result differs from the static `Multiply`. -/
theorem instance_ops_cex :
    instMul ⟨1, 0, 0, 0⟩ ⟨0, 0, 1, 0⟩ ≠ Multiply ⟨1, 0, 0, 0⟩ ⟨0, 0, 1, 0⟩ := by
  have h1 : instMul ⟨1, 0, 0, 0⟩ ⟨0, 0, 1, 0⟩ = ⟨0, 0, 0, 0⟩ := by
    unfold instMul
    norm_num
  have h2 : Multiply ⟨1, 0, 0, 0⟩ ⟨0, 0, 1, 0⟩ = ⟨0, -1, 0, 1⟩ := by
    unfold Multiply
    rw [qmk_eq]
    norm_num
  rw [h1, h2]
  norm_num

/-- C6 (amended): instance `Add`/`Subtract` assign the componentwise results
directly and agree with the static operations exactly when the resulting w
component is nonzero (the static forms pass through the zero-defaulting
constructor), while instance `Multiply` updates the receiver's fields
sequentially (later components read already-updated earlier ones) and instance
`Divide` multiplies by `other.inverse` the same way, so neither generally
equals its static counterpart. -/
theorem instance_ops_spec :
    (∀ q o : Quat, q.w + o.w ≠ 0 → instAdd q o = Add q o) ∧
    (∀ q o : Quat, q.w - o.w ≠ 0 → instSub q o = Subtract q o) ∧
    (∃ q o : Quat, instMul q o ≠ Multiply q o) ∧
    (∃ q o : Quat, instDiv q o ≠ Divide q o) := by
  refine ⟨?_, ?_, ?_, ?_⟩
  · intro q o h
    unfold instAdd Add
    rw [qmk_of_w_ne h]
  · intro q o h
    unfold instSub Subtract
    rw [qmk_of_w_ne h]
  · refine ⟨⟨1, 0, 0, 0⟩, ⟨0, 0, 1, 0⟩, ?_⟩
    have h1 : instMul ⟨1, 0, 0, 0⟩ ⟨0, 0, 1, 0⟩ = ⟨0, 0, 0, 0⟩ := by
      unfold instMul
      norm_num
    have h2 : Multiply ⟨1, 0, 0, 0⟩ ⟨0, 0, 1, 0⟩ = ⟨0, -1, 0, 1⟩ := by
      unfold Multiply
      rw [qmk_eq]
      norm_num
    rw [h1, h2]
    norm_num
  · refine ⟨⟨1, 0, 0, 0⟩, ⟨0, 0, 0, 1⟩, ?_⟩
    have h1 : instDiv ⟨1, 0, 0, 0⟩ ⟨0, 0, 0, 1⟩ = ⟨1, 0, 0, 0⟩ := by
      unfold instDiv
      rw [inverse_id]
      unfold instMul
      norm_num
    have h2 : Divide ⟨1, 0, 0, 0⟩ ⟨0, 0, 0, 1⟩ = ⟨1, 0, 0, 1⟩ := by
      unfold Divide
      rw [inverse_id, multiply_q_id, qmk_eq]
      norm_num
    rw [h1, h2]
    norm_num

/-- Witness for C6 at concrete inputs with nonzero resulting w. -/
theorem instance_ops_witness :
    instAdd ⟨0, 0, 0, 1⟩ ⟨0, 0, 0, 1⟩ = Add ⟨0, 0, 0, 1⟩ ⟨0, 0, 0, 1⟩ ∧
    instSub ⟨0, 0, 0, 3⟩ ⟨0, 0, 0, 1⟩ = Subtract ⟨0, 0, 0, 3⟩ ⟨0, 0, 0, 1⟩ :=
  ⟨instance_ops_spec.1 _ _ (by norm_num), instance_ops_spec.2.1 _ _ (by norm_num)⟩

/-- Counterexample for C7: (1, 0, 0, 0) has nonzero magnitude, yet its
`conjugate` is not (-1, -0, -0, 0): the constructor replaces the w argument 0
by the default 1. -/
theorem conjugate_inverse_cex :
    magnitude ⟨1, 0, 0, 0⟩ ≠ 0 ∧ conjugate ⟨1, 0, 0, 0⟩ ≠ ⟨-1, -0, -0, 0⟩ := by
  constructor
  · have h : magnitude ⟨1, 0, 0, 0⟩ = 1 := by rw [magnitude_eq_one_iff]; norm_num [Dot]
    rw [h]
    norm_num
  · unfold conjugate
    rw [qmk_eq]
    norm_num

/-- C7 (amended): for every quaternion with nonzero magnitude and nonzero w
component, `conjugate` is (-x, -y, -z, w) and `inverse` is the conjugate with
every component divided by the squared magnitude. -/
theorem conjugate_inverse_spec (q : Quat) (hm : magnitude q ≠ 0) (hw : q.w ≠ 0) :
    conjugate q = ⟨-q.x, -q.y, -q.z, q.w⟩ ∧
    inverse q = ⟨(conjugate q).x / magnitude q ^ 2, (conjugate q).y / magnitude q ^ 2,
      (conjugate q).z / magnitude q ^ 2, (conjugate q).w / magnitude q ^ 2⟩ := by
  have hc : conjugate q = ⟨-q.x, -q.y, -q.z, q.w⟩ := by
    unfold conjugate
    exact qmk_of_w_ne hw _ _ _
  refine ⟨hc, ?_⟩
  unfold inverse
  rw [hc]
  dsimp only
  rw [qmk_of_w_ne (div_ne_zero hw (pow_ne_zero 2 hm))]

/-- Witness for C7 at (0, 0, 0, 2). -/
theorem conjugate_inverse_witness :
    conjugate ⟨0, 0, 0, 2⟩ = ⟨-0, -0, -0, 2⟩ ∧
    inverse ⟨0, 0, 0, 2⟩ = ⟨(conjugate ⟨0, 0, 0, 2⟩).x / magnitude ⟨0, 0, 0, 2⟩ ^ 2,
      (conjugate ⟨0, 0, 0, 2⟩).y / magnitude ⟨0, 0, 0, 2⟩ ^ 2,
      (conjugate ⟨0, 0, 0, 2⟩).z / magnitude ⟨0, 0, 0, 2⟩ ^ 2,
      (conjugate ⟨0, 0, 0, 2⟩).w / magnitude ⟨0, 0, 0, 2⟩ ^ 2⟩ := by
  have h4 : Dot ⟨0, 0, 0, 2⟩ ⟨0, 0, 0, 2⟩ = 4 := by norm_num [Dot]
  exact conjugate_inverse_spec ⟨0, 0, 0, 2⟩
    (by rw [magnitude, h4, sqrt_four]; norm_num) (by norm_num)

/-- C10: for every quaternion with positive magnitude and nonzero w component,
`normalized` has magnitude exactly 1; the nonzero-w precondition is needed,
since a positive-magnitude quaternion with w = 0 normalizes to a quaternion
whose magnitude is not 1 (the constructor replaces the computed w of 0 by 1). -/
theorem normalized_unit_magnitude :
    (∀ q : Quat, 0 < magnitude q → q.w ≠ 0 → magnitude (normalized q) = 1) ∧
    (∃ p : Quat, 0 < magnitude p ∧ p.w = 0 ∧ magnitude (normalized p) ≠ 1) := by
  refine ⟨fun q hm hw => magnitude_normalized hm hw, ⟨2, 0, 0, 0⟩, ?_, rfl, ?_⟩
  · have h4 : Dot ⟨2, 0, 0, 0⟩ ⟨2, 0, 0, 0⟩ = 4 := by norm_num [Dot]
    rw [magnitude, h4, sqrt_four]
    norm_num
  · have h4 : Dot ⟨2, 0, 0, 0⟩ ⟨2, 0, 0, 0⟩ = 4 := by norm_num [Dot]
    have hm : magnitude ⟨2, 0, 0, 0⟩ = 2 := by rw [magnitude, h4, sqrt_four]
    have hn : normalized ⟨2, 0, 0, 0⟩ = ⟨1, 0, 0, 1⟩ := by
      rw [normalized, if_pos (by rw [hm]; norm_num), hm, qmk_eq]
      norm_num
    rw [hn, Ne, magnitude_eq_one_iff]
    norm_num [Dot]

/-- Witness for C10 at (0, 0, 0, 2). -/
theorem normalized_unit_magnitude_witness : magnitude (normalized ⟨0, 0, 0, 2⟩) = 1 := by
  have h4 : Dot ⟨0, 0, 0, 2⟩ ⟨0, 0, 0, 2⟩ = 4 := by norm_num [Dot]
  exact normalized_unit_magnitude.1 ⟨0, 0, 0, 2⟩
    (by rw [magnitude, h4, sqrt_four]; norm_num) (by norm_num)

/-! Helper lemmas about the slerp locals. -/

lemma slerpTo_of_nonneg {q r : Quat} (h : 0 ≤ Dot q r) : slerpTo q r = r := by
  rw [slerpTo, if_neg (not_lt.mpr h)]

lemma slerpDot_of_nonneg {q r : Quat} (h : 0 ≤ Dot q r) : slerpDot q r = Dot q r := by
  rw [slerpDot, if_neg (not_lt.mpr h)]

lemma slerpTo_of_neg {q r : Quat} (h : Dot q r < 0) (hw : r.w ≠ 0) :
    slerpTo q r = ⟨-r.x, -r.y, -r.z, -r.w⟩ := by
  rw [slerpTo, if_pos h, qmk_of_w_ne (neg_ne_zero.mpr hw)]

lemma slerpDot_of_neg {q r : Quat} (h : Dot q r < 0) : slerpDot q r = -(Dot q r) := by
  rw [slerpDot, if_pos h]

lemma slerpDot_nonneg (q r : Quat) : 0 ≤ slerpDot q r := by
  rw [slerpDot]
  split
  · linarith
  · exact not_lt.mp (by assumption)

/-- When the sign flip is quirk-free, the flipped quaternion has dot product
`slerpDot` with the first argument. -/
lemma dot_slerpTo {q r : Quat} (hneg : Dot q r < 0 → r.w ≠ 0) :
    Dot q (slerpTo q r) = slerpDot q r := by
  rcases lt_or_le (Dot q r) 0 with h | h
  · rw [slerpTo_of_neg h (hneg h), slerpDot_of_neg h]
    unfold Dot
    dsimp only
    ring
  · rw [slerpTo_of_nonneg h, slerpDot_of_nonneg h]

/-- When the sign flip is quirk-free, it preserves the self dot product. -/
lemma dot_slerpTo_self {q r : Quat} (hneg : Dot q r < 0 → r.w ≠ 0) :
    Dot (slerpTo q r) (slerpTo q r) = Dot r r := by
  rcases lt_or_le (Dot q r) 0 with h | h
  · rw [slerpTo_of_neg h (hneg h)]
    unfold Dot
    dsimp only
    ring
  · rw [slerpTo_of_nonneg h]

/-- Cauchy-Schwarz for the four-component dot product at unit arguments. -/
lemma dot_le_one {a b : Quat} (ha : Dot a a = 1) (hb : Dot b b = 1) : Dot a b ≤ 1 := by
  unfold Dot at ha hb ⊢
  nlinarith [sq_nonneg (a.x - b.x), sq_nonneg (a.y - b.y), sq_nonneg (a.z - b.z),
    sq_nonneg (a.w - b.w)]

/-- Ring identity: self dot product of the Gram-Schmidt difference b - c * a. -/
lemma dot_sub_smul (a b : Quat) (c : ℝ) :
    Dot ⟨b.x - a.x * c, b.y - a.y * c, b.z - a.z * c, b.w - a.w * c⟩
      ⟨b.x - a.x * c, b.y - a.y * c, b.z - a.z * c, b.w - a.w * c⟩
      = Dot b b - 2 * c * Dot a b + c ^ 2 * Dot a a := by
  unfold Dot
  dsimp only
  ring

/-- Ring identity: dot product of a with the Gram-Schmidt difference b - c * a. -/
lemma dot_sub_smul_left (a b : Quat) (c : ℝ) :
    Dot a ⟨b.x - a.x * c, b.y - a.y * c, b.z - a.z * c, b.w - a.w * c⟩
      = Dot a b - c * Dot a a := by
  unfold Dot
  dsimp only
  ring

/-- Ring identity: self dot product of the linear interpolation a + t * (b - a). -/
lemma dot_lerp (a b : Quat) (t : ℝ) :
    Dot ⟨a.x + t * (b.x - a.x), a.y + t * (b.y - a.y), a.z + t * (b.z - a.z),
        a.w + t * (b.w - a.w)⟩
      ⟨a.x + t * (b.x - a.x), a.y + t * (b.y - a.y), a.z + t * (b.z - a.z),
        a.w + t * (b.w - a.w)⟩
      = (1 - t) ^ 2 * Dot a a + 2 * t * (1 - t) * Dot a b + t ^ 2 * Dot b b := by
  unfold Dot
  dsimp only
  ring

/-- Ring identity: dot product of a with a componentwise division of b. -/
lemma dot_left_div (a b : Quat) (m : ℝ) :
    Dot a ⟨b.x / m, b.y / m, b.z / m, b.w / m⟩ = Dot a b / m := by
  unfold Dot
  dsimp only
  ring

/-- Ring identity: self dot product of the combination c * a + s * b. -/
lemma dot_combo (a b : Quat) (c s : ℝ) :
    Dot ⟨a.x * c + b.x * s, a.y * c + b.y * s, a.z * c + b.z * s, a.w * c + b.w * s⟩
      ⟨a.x * c + b.x * s, a.y * c + b.y * s, a.z * c + b.z * s, a.w * c + b.w * s⟩
      = c ^ 2 * Dot a a + 2 * c * s * Dot a b + s ^ 2 * Dot b b := by
  unfold Dot
  dsimp only
  ring

/-- A unit quaternion with nonzero w is a fixed point of `normalized`. -/
lemma normalized_of_unit {q : Quat} (hq : magnitude q = 1) (hw : q.w ≠ 0) :
    normalized q = q := by
  rw [normalized_of (by rw [hq]; norm_num) hw, hq]
  simp only [div_one]

/-- Counterexample for C2: for the non-unit pair a = b = (0, 0, 0, 2) and
t = 0, `Slerp` runs the near-parallel branch and returns the normalization
(0, 0, 0, 1) of a, not a itself. -/
theorem slerp_endpoints_cex :
    Slerp ⟨0, 0, 0, 2⟩ ⟨0, 0, 0, 2⟩ 0 ≠ ⟨0, 0, 0, 2⟩ := by
  have hd : Dot ⟨0, 0, 0, 2⟩ ⟨0, 0, 0, 2⟩ = 4 := by norm_num [Dot]
  have hD : slerpDot ⟨0, 0, 0, 2⟩ ⟨0, 0, 0, 2⟩ = 4 := by
    rw [slerpDot_of_nonneg (by rw [hd]; norm_num), hd]
  have hTo : slerpTo ⟨0, 0, 0, 2⟩ ⟨0, 0, 0, 2⟩ = ⟨0, 0, 0, 2⟩ :=
    slerpTo_of_nonneg (by rw [hd]; norm_num)
  have hm : magnitude ⟨0, 0, 0, 2⟩ = 2 := by rw [magnitude, hd, sqrt_four]
  rw [Slerp, if_neg (lt_irrefl 0), if_neg (by norm_num), DoSlerp,
    if_pos (by rw [hD]; norm_num), hTo]
  have harg : qmk ((⟨0, 0, 0, 2⟩:Quat).x + 0 * ((⟨0, 0, 0, 2⟩:Quat).x - (⟨0, 0, 0, 2⟩:Quat).x))
      ((⟨0, 0, 0, 2⟩:Quat).y + 0 * ((⟨0, 0, 0, 2⟩:Quat).y - (⟨0, 0, 0, 2⟩:Quat).y))
      ((⟨0, 0, 0, 2⟩:Quat).z + 0 * ((⟨0, 0, 0, 2⟩:Quat).z - (⟨0, 0, 0, 2⟩:Quat).z))
      ((⟨0, 0, 0, 2⟩:Quat).w + 0 * ((⟨0, 0, 0, 2⟩:Quat).w - (⟨0, 0, 0, 2⟩:Quat).w))
      = ⟨0, 0, 0, 2⟩ := by
    rw [qmk_eq]
    norm_num
  rw [harg, normalized, if_pos (by rw [hm]; norm_num), hm, qmk_eq]
  norm_num

/-- C2 (amended): the Slerp endpoint identities `Slerp(a, b, 0) = a` and
`Slerp(a, b, 1) = b` hold componentwise for unit quaternions a, b with
`Dot(a, b) ≥ 0`, nonzero w components, and (in the trigonometric branch,
`Dot(a, b) ≤ 0.9995`) a nonzero w component `b.w - a.w * Dot(a, b)` of the
Gram-Schmidt intermediate, all of which a counterexample otherwise breaks
through the zero-defaulting constructor or the shorter-arc sign flip. -/
theorem slerp_endpoints (q r : Quat) (hq : magnitude q = 1) (hr : magnitude r = 1)
    (hd0 : 0 ≤ Dot q r) (hqw : q.w ≠ 0) (hrw : r.w ≠ 0)
    (horth : Dot q r ≤ 0.9995 → r.w - q.w * Dot q r ≠ 0) :
    Slerp q r 0 = q ∧ Slerp q r 1 = r := by
  have hq1 : Dot q q = 1 := (magnitude_eq_one_iff q).mp hq
  have hr1 : Dot r r = 1 := (magnitude_eq_one_iff r).mp hr
  have hTo : slerpTo q r = r := slerpTo_of_nonneg hd0
  have hD : slerpDot q r = Dot q r := slerpDot_of_nonneg hd0
  have hd1 : Dot q r ≤ 1 := dot_le_one hq1 hr1
  constructor
  · rw [Slerp, if_neg (lt_irrefl 0), if_neg (by norm_num), DoSlerp]
    split_ifs with hbig
    · have harg : qmk (q.x + 0 * ((slerpTo q r).x - q.x)) (q.y + 0 * ((slerpTo q r).y - q.y))
          (q.z + 0 * ((slerpTo q r).z - q.z)) (q.w + 0 * ((slerpTo q r).w - q.w)) = q := by
        rw [qmk_eq]
        norm_num
        rw [if_neg hqw]
      rw [harg, normalized_of_unit hq hqw]
    · have hθ : slerpTheta q r 0 = 0 := by rw [slerpTheta, mul_zero]
      rw [hθ, Real.cos_zero, Real.sin_zero]
      have harg : qmk (q.x * 1 + (slerpOrth q r).x * 0) (q.y * 1 + (slerpOrth q r).y * 0)
          (q.z * 1 + (slerpOrth q r).z * 0) (q.w * 1 + (slerpOrth q r).w * 0) = q := by
        rw [qmk_eq]
        norm_num
        rw [if_neg hqw]
      rw [harg]
  · rw [Slerp, if_neg (by norm_num), if_neg (lt_irrefl 1), DoSlerp]
    split_ifs with hbig
    · have harg : qmk (q.x + 1 * ((slerpTo q r).x - q.x)) (q.y + 1 * ((slerpTo q r).y - q.y))
          (q.z + 1 * ((slerpTo q r).z - q.z)) (q.w + 1 * ((slerpTo q r).w - q.w)) = r := by
        rw [hTo, qmk_eq]
        norm_num
        rw [if_neg hrw]
      rw [harg, normalized_of_unit hr hrw]
    · have hsm : Dot q r ≤ 0.9995 := by rw [hD] at hbig; exact le_of_not_lt hbig
      have huw : r.w - q.w * Dot q r ≠ 0 := horth hsm
      have huw2 : (slerpTo q r).w - q.w * slerpDot q r ≠ 0 := by rw [hTo, hD]; exact huw
      -- the Gram-Schmidt intermediate and its self dot product
      have hUU : Dot ⟨(slerpTo q r).x - q.x * slerpDot q r, (slerpTo q r).y - q.y * slerpDot q r,
          (slerpTo q r).z - q.z * slerpDot q r, (slerpTo q r).w - q.w * slerpDot q r⟩
          ⟨(slerpTo q r).x - q.x * slerpDot q r, (slerpTo q r).y - q.y * slerpDot q r,
          (slerpTo q r).z - q.z * slerpDot q r, (slerpTo q r).w - q.w * slerpDot q r⟩
          = 1 - Dot q r ^ 2 := by
        rw [hTo, hD, dot_sub_smul q r (Dot q r), hq1, hr1]
        ring
      have hpos : (0:ℝ) < 1 - Dot q r ^ 2 := by nlinarith [slerpDot_nonneg q r, hD]
      have hUpos : 0 < magnitude ⟨(slerpTo q r).x - q.x * slerpDot q r,
          (slerpTo q r).y - q.y * slerpDot q r, (slerpTo q r).z - q.z * slerpDot q r,
          (slerpTo q r).w - q.w * slerpDot q r⟩ :=
        magnitude_pos_of_dot (by rw [hUU]; exact hpos)
      have hUmag : magnitude ⟨(slerpTo q r).x - q.x * slerpDot q r,
          (slerpTo q r).y - q.y * slerpDot q r, (slerpTo q r).z - q.z * slerpDot q r,
          (slerpTo q r).w - q.w * slerpDot q r⟩ = Real.sqrt (1 - Dot q r ^ 2) := by
        rw [magnitude, hUU]
      have hmne : Real.sqrt (1 - Dot q r ^ 2) ≠ 0 := ne_of_gt (Real.sqrt_pos.mpr hpos)
      have horthval : slerpOrth q r = ⟨(r.x - q.x * Dot q r) / Real.sqrt (1 - Dot q r ^ 2),
          (r.y - q.y * Dot q r) / Real.sqrt (1 - Dot q r ^ 2),
          (r.z - q.z * Dot q r) / Real.sqrt (1 - Dot q r ^ 2),
          (r.w - q.w * Dot q r) / Real.sqrt (1 - Dot q r ^ 2)⟩ := by
        rw [slerpOrth, qmk_of_w_ne huw2, normalized_of hUpos huw2, hUmag, hTo, hD]
      have hθ : slerpTheta q r 1 = Real.arccos (Dot q r) := by
        rw [slerpTheta, hD, mul_one]
      have hcos : Real.cos (slerpTheta q r 1) = Dot q r := by
        rw [hθ]
        exact Real.cos_arccos (by linarith) hd1
      have hsin : Real.sin (slerpTheta q r 1) = Real.sqrt (1 - Dot q r ^ 2) := by
        rw [hθ, Real.sin_arccos]
      have harg : qmk (q.x * Real.cos (slerpTheta q r 1) +
            (slerpOrth q r).x * Real.sin (slerpTheta q r 1))
          (q.y * Real.cos (slerpTheta q r 1) + (slerpOrth q r).y * Real.sin (slerpTheta q r 1))
          (q.z * Real.cos (slerpTheta q r 1) + (slerpOrth q r).z * Real.sin (slerpTheta q r 1))
          (q.w * Real.cos (slerpTheta q r 1) + (slerpOrth q r).w * Real.sin (slerpTheta q r 1))
          = r := by
        rw [hcos, hsin, horthval]
        dsimp only
        rw [div_mul_cancel₀ _ hmne, div_mul_cancel₀ _ hmne, div_mul_cancel₀ _ hmne,
          div_mul_cancel₀ _ hmne]
        have hx : q.x * Dot q r + (r.x - q.x * Dot q r) = r.x := by ring
        have hy : q.y * Dot q r + (r.y - q.y * Dot q r) = r.y := by ring
        have hz : q.z * Dot q r + (r.z - q.z * Dot q r) = r.z := by ring
        have hw4 : q.w * Dot q r + (r.w - q.w * Dot q r) = r.w := by ring
        rw [hx, hy, hz, hw4, qmk_of_w_ne hrw]
      rw [harg]

/-- Witness for C2 at a concrete unit pair in the near-parallel branch. -/
theorem slerp_endpoints_witness :
    Slerp ⟨1/2, 1/2, 1/2, 1/2⟩ ⟨1/2, 1/2, 1/2, 1/2⟩ 0 = ⟨1/2, 1/2, 1/2, 1/2⟩ ∧
    Slerp ⟨1/2, 1/2, 1/2, 1/2⟩ ⟨1/2, 1/2, 1/2, 1/2⟩ 1 = ⟨1/2, 1/2, 1/2, 1/2⟩ :=
  slerp_endpoints ⟨1/2, 1/2, 1/2, 1/2⟩ ⟨1/2, 1/2, 1/2, 1/2⟩
    (by rw [magnitude_eq_one_iff]; norm_num [Dot])
    (by rw [magnitude_eq_one_iff]; norm_num [Dot])
    (by norm_num [Dot]) (by norm_num) (by norm_num)
    (by norm_num [Dot])

/-- Counterexample for C1: for the unit quaternions (0, 0, 0, 1) and
(1, 0, 0, 0) and t = 1/2, `DoSlerp` does not return a unit quaternion: the
Gram-Schmidt intermediate (1, 0, 0, 0) gets its w component 0 replaced by 1
by the constructor, so the orthogonal basis is wrong and the result has
squared magnitude 1 + sqrt(2)/2. -/
theorem doSlerp_unit_cex :
    magnitude ⟨0, 0, 0, 1⟩ = 1 ∧ magnitude ⟨1, 0, 0, 0⟩ = 1 ∧
    ((0:ℝ) ≤ 1/2 ∧ (1/2:ℝ) ≤ 1) ∧
    magnitude (DoSlerp ⟨0, 0, 0, 1⟩ ⟨1, 0, 0, 0⟩ (1/2)) ≠ 1 := by
  refine ⟨by rw [magnitude_eq_one_iff]; norm_num [Dot],
    by rw [magnitude_eq_one_iff]; norm_num [Dot], by norm_num, ?_⟩
  have h2 : Real.sqrt 2 * Real.sqrt 2 = 2 := Real.mul_self_sqrt (by norm_num)
  have h2pos : 0 < Real.sqrt 2 := Real.sqrt_pos.mpr (by norm_num)
  have h2ne : Real.sqrt 2 ≠ 0 := ne_of_gt h2pos
  have hinv : 1 / Real.sqrt 2 = Real.sqrt 2 / 2 := by
    field_simp
  have h0 : Dot ⟨0, 0, 0, 1⟩ ⟨1, 0, 0, 0⟩ = 0 := by norm_num [Dot]
  have hD : slerpDot ⟨0, 0, 0, 1⟩ ⟨1, 0, 0, 0⟩ = 0 := by
    rw [slerpDot_of_nonneg (le_of_eq h0.symm), h0]
  have hTo : slerpTo ⟨0, 0, 0, 1⟩ ⟨1, 0, 0, 0⟩ = ⟨1, 0, 0, 0⟩ :=
    slerpTo_of_nonneg (le_of_eq h0.symm)
  have hθ : slerpTheta ⟨0, 0, 0, 1⟩ ⟨1, 0, 0, 0⟩ (1/2) = Real.pi / 4 := by
    rw [slerpTheta, hD, Real.arccos_zero]
    ring
  have horth : slerpOrth ⟨0, 0, 0, 1⟩ ⟨1, 0, 0, 0⟩ =
      ⟨Real.sqrt 2 / 2, 0, 0, Real.sqrt 2 / 2⟩ := by
    rw [slerpOrth, hTo, hD]
    have hU : qmk ((⟨1, 0, 0, 0⟩:Quat).x - (⟨0, 0, 0, 1⟩:Quat).x * 0)
        ((⟨1, 0, 0, 0⟩:Quat).y - (⟨0, 0, 0, 1⟩:Quat).y * 0)
        ((⟨1, 0, 0, 0⟩:Quat).z - (⟨0, 0, 0, 1⟩:Quat).z * 0)
        ((⟨1, 0, 0, 0⟩:Quat).w - (⟨0, 0, 0, 1⟩:Quat).w * 0) = ⟨1, 0, 0, 1⟩ := by
      rw [qmk_eq]
      norm_num
    rw [hU]
    have hd2 : Dot ⟨1, 0, 0, 1⟩ ⟨1, 0, 0, 1⟩ = 2 := by norm_num [Dot]
    have hm2 : magnitude ⟨1, 0, 0, 1⟩ = Real.sqrt 2 := by rw [magnitude, hd2]
    rw [normalized_of (by rw [hm2]; exact h2pos) (by norm_num), hm2]
    norm_num [hinv]
  intro hcontra
  replace hcontra := (magnitude_eq_one_iff _).mp hcontra
  rw [DoSlerp, if_neg (by rw [hD]; norm_num), hθ, horth, Real.cos_pi_div_four,
    Real.sin_pi_div_four] at hcontra
  dsimp only at hcontra
  have hwne : (1:ℝ) * (Real.sqrt 2 / 2) + Real.sqrt 2 / 2 * (Real.sqrt 2 / 2) ≠ 0 := by
    positivity
  rw [qmk_eq, if_neg hwne] at hcontra
  unfold Dot at hcontra
  dsimp only at hcontra
  have hs2 : Real.sqrt 2 ^ 2 = 2 := Real.sq_sqrt (by norm_num)
  have hs3 : Real.sqrt 2 ^ 3 = 2 * Real.sqrt 2 := by rw [pow_succ, hs2]
  have hs4 : Real.sqrt 2 ^ 4 = 4 := by
    rw [show (4:ℕ) = 2 * 2 from rfl, pow_mul, hs2]
    norm_num
  nlinarith [hcontra, hs2, hs3, hs4, h2pos]

/-- C1 (amended): `DoSlerp` follows the specified algorithm with every
quaternion construction routed through the zero-defaulting constructor, and
for unit quaternions from, to and t in [0, 1] the result is a unit quaternion
(in exact real arithmetic) provided the w components computed along the taken
path are nonzero: the w of the negated `to` when the sign flip fires, the w of
the Gram-Schmidt intermediate, and the w of the final trigonometric
combination (a computed w of exactly 0 would be replaced by the default 1). -/
theorem doSlerp_unit_result (q r : Quat) (t : ℝ)
    (hq : magnitude q = 1) (hr : magnitude r = 1)
    (ht0 : 0 ≤ t) (ht1 : t ≤ 1)
    (hneg : Dot q r < 0 → r.w ≠ 0)
    (how : slerpDot q r ≤ 0.9995 → (slerpTo q r).w - q.w * slerpDot q r ≠ 0)
    (hfw : slerpDot q r ≤ 0.9995 →
      q.w * Real.cos (slerpTheta q r t) + (slerpOrth q r).w * Real.sin (slerpTheta q r t) ≠ 0) :
    magnitude (DoSlerp q r t) = 1 := by
  have hq1 : Dot q q = 1 := (magnitude_eq_one_iff q).mp hq
  have hr1 : Dot r r = 1 := (magnitude_eq_one_iff r).mp hr
  have hto1 : Dot (slerpTo q r) (slerpTo q r) = 1 := by
    rw [dot_slerpTo_self hneg]
    exact hr1
  have htoD : Dot q (slerpTo q r) = slerpDot q r := dot_slerpTo hneg
  have hDnn : 0 ≤ slerpDot q r := slerpDot_nonneg q r
  have hDle : slerpDot q r ≤ 1 := by rw [← htoD]; exact dot_le_one hq1 hto1
  rw [magnitude_eq_one_iff, DoSlerp]
  split_ifs with hbig
  · -- near-parallel branch: the normalized lerp is always a unit quaternion,
    -- since the constructed w is never zero
    refine dot_normalized (magnitude_pos_of_dot ?_) (qmk_w_ne_zero _ _ _ _)
    rw [qmk_eq]
    split_ifs with hW
    · unfold Dot
      dsimp only
      nlinarith [mul_self_nonneg (q.x + t * ((slerpTo q r).x - q.x)),
        mul_self_nonneg (q.y + t * ((slerpTo q r).y - q.y)),
        mul_self_nonneg (q.z + t * ((slerpTo q r).z - q.z))]
    · rw [dot_lerp q (slerpTo q r) t, hq1, hto1, htoD]
      nlinarith [mul_nonneg ht0 (sub_nonneg.mpr ht1), sq_nonneg (2 * t - 1),
        sub_nonneg.mpr hDle, hbig]
  · -- trigonometric branch
    have hsm : slerpDot q r ≤ 0.9995 := le_of_not_lt hbig
    have huw : (slerpTo q r).w - q.w * slerpDot q r ≠ 0 := how hsm
    have hWne := hfw hsm
    have hUU : Dot ⟨(slerpTo q r).x - q.x * slerpDot q r, (slerpTo q r).y - q.y * slerpDot q r,
        (slerpTo q r).z - q.z * slerpDot q r, (slerpTo q r).w - q.w * slerpDot q r⟩
        ⟨(slerpTo q r).x - q.x * slerpDot q r, (slerpTo q r).y - q.y * slerpDot q r,
        (slerpTo q r).z - q.z * slerpDot q r, (slerpTo q r).w - q.w * slerpDot q r⟩
        = 1 - slerpDot q r ^ 2 := by
      rw [dot_sub_smul q (slerpTo q r) (slerpDot q r), hq1, hto1, htoD]
      ring
    have hposU : (0:ℝ) < 1 - slerpDot q r ^ 2 := by nlinarith [hDnn, hsm]
    have hUpos : 0 < magnitude ⟨(slerpTo q r).x - q.x * slerpDot q r,
        (slerpTo q r).y - q.y * slerpDot q r, (slerpTo q r).z - q.z * slerpDot q r,
        (slerpTo q r).w - q.w * slerpDot q r⟩ :=
      magnitude_pos_of_dot (by rw [hUU]; exact hposU)
    have horthdot : Dot q (slerpOrth q r) = 0 := by
      rw [slerpOrth, qmk_of_w_ne huw, normalized_of hUpos huw, dot_left_div,
        dot_sub_smul_left q (slerpTo q r) (slerpDot q r), htoD, hq1]
      simp
    have horthunit : Dot (slerpOrth q r) (slerpOrth q r) = 1 := by
      rw [slerpOrth, qmk_of_w_ne huw]
      exact dot_normalized hUpos huw
    rw [qmk_of_w_ne hWne,
      dot_combo q (slerpOrth q r) (Real.cos (slerpTheta q r t)) (Real.sin (slerpTheta q r t)),
      hq1, horthdot, horthunit]
    linear_combination Real.sin_sq_add_cos_sq (slerpTheta q r t)

/-- Witness for C1 at a concrete quirk-free unit pair in the trigonometric
branch. -/
theorem doSlerp_unit_result_witness :
    magnitude (DoSlerp ⟨1/2, 1/2, 1/2, 1/2⟩ ⟨-1/2, 1/2, -1/2, 1/2⟩ (1/2)) = 1 := by
  have h0 : Dot ⟨1/2, 1/2, 1/2, 1/2⟩ ⟨-1/2, 1/2, -1/2, 1/2⟩ = 0 := by norm_num [Dot]
  have hD : slerpDot ⟨1/2, 1/2, 1/2, 1/2⟩ ⟨-1/2, 1/2, -1/2, 1/2⟩ = 0 := by
    rw [slerpDot_of_nonneg (le_of_eq h0.symm), h0]
  have hTo : slerpTo ⟨1/2, 1/2, 1/2, 1/2⟩ ⟨-1/2, 1/2, -1/2, 1/2⟩ = ⟨-1/2, 1/2, -1/2, 1/2⟩ :=
    slerpTo_of_nonneg (le_of_eq h0.symm)
  have hθ : slerpTheta ⟨1/2, 1/2, 1/2, 1/2⟩ ⟨-1/2, 1/2, -1/2, 1/2⟩ (1/2) = Real.pi / 4 := by
    rw [slerpTheta, hD, Real.arccos_zero]
    ring
  have horth : slerpOrth ⟨1/2, 1/2, 1/2, 1/2⟩ ⟨-1/2, 1/2, -1/2, 1/2⟩
      = ⟨-1/2, 1/2, -1/2, 1/2⟩ := by
    rw [slerpOrth, hTo, hD]
    have hU : qmk ((⟨-1/2, 1/2, -1/2, 1/2⟩:Quat).x - (⟨1/2, 1/2, 1/2, 1/2⟩:Quat).x * 0)
        ((⟨-1/2, 1/2, -1/2, 1/2⟩:Quat).y - (⟨1/2, 1/2, 1/2, 1/2⟩:Quat).y * 0)
        ((⟨-1/2, 1/2, -1/2, 1/2⟩:Quat).z - (⟨1/2, 1/2, 1/2, 1/2⟩:Quat).z * 0)
        ((⟨-1/2, 1/2, -1/2, 1/2⟩:Quat).w - (⟨1/2, 1/2, 1/2, 1/2⟩:Quat).w * 0)
        = ⟨-1/2, 1/2, -1/2, 1/2⟩ := by
      rw [qmk_eq]
      norm_num
    rw [hU]
    exact normalized_of_unit (by rw [magnitude_eq_one_iff]; norm_num [Dot]) (by norm_num)
  apply doSlerp_unit_result
  · rw [magnitude_eq_one_iff]; norm_num [Dot]
  · rw [magnitude_eq_one_iff]; norm_num [Dot]
  · norm_num
  · norm_num
  · intro hlt
    rw [h0] at hlt
    exact absurd hlt (lt_irrefl 0)
  · intro _
    rw [hTo, hD]
    norm_num
  · intro _
    rw [hθ, horth, Real.cos_pi_div_four, Real.sin_pi_div_four]
    dsimp only
    positivity

end QuatSpec
